import Mathlib

/-!
Verification of the `mb` node/relation store (rhyzome) against its
specification.  The two storage backends, `rhyzome-heed.rs` (embedded
key-value engine) and `rhyzome-sqlx.rs` (relational engine), are embedded
shallowly: strings are lists of characters, the key-value databases are
association lists, the SQL tables are lists of rows, and each Rust method
becomes a pure Lean function on an explicit state value.  Engine-level
faults (environment cannot open, transaction cannot commit) are outside the
model; the fallible operations that remain fallible in the model are the
ones whose errors come from the code itself (key decoding).
-/

deriving instance DecidableEq for Except

namespace Rhyzome

/-- Character strings, modelled as lists of characters. -/
abbrev Str := List Char

/-- The composite-key delimiter used by `add_relation` in `rhyzome-heed.rs`. -/
def delim : Char := '_'

/-- Models Rust `str::split(d)`: splits at every occurrence of `d` and keeps
empty segments, so a string containing n delimiters yields n+1 parts
(`"".split(d)` yields one empty part). -/
def splitChar (d : Char) : Str → List Str
  | [] => [[]]
  | c :: cs =>
    if c = d then [] :: splitChar d cs
    else
      match splitChar d cs with
      | [] => [[c]]
      | p :: ps => (c :: p) :: ps

/-- The composite relation key built by `add_relation` / `get_relation` /
`update_relation` / `delete_relation` in `rhyzome-heed.rs`:
`format!("{}_{}_{}", relation_name, node_id1, node_id2)`. -/
def relationKey (relation_name node_id1 node_id2 : Str) : Str :=
  relation_name ++ (delim :: (node_id1 ++ (delim :: node_id2)))

/-- Models `parse_relation_key` in `rhyzome-heed.rs`: split the key on `'_'`;
if the number of parts is not exactly 3, fail with "Invalid relation key";
otherwise return the three parts (the source's length-3 test followed by
indexing parts 0, 1, 2 is rendered as a three-element list pattern). -/
def parse_relation_key (relation_key : Str) : Except String (Str × Str × Str) :=
  match splitChar delim relation_key with
  | [a, b, c] => .ok (a, b, c)
  | _ => .error "Invalid relation key"

/-- A node record (`Node` in rhyzome-heed.rs): id, data payload, timestamp.
Timestamps (`chrono::DateTime<Utc>`) are abstracted as natural numbers. -/
structure Node where
  id : Str
  data : Str
  timestamp : Nat
deriving DecidableEq

/-- A relation record (`Relation` in rhyzome-heed.rs): data payload and
timestamp. -/
structure Relation where
  data : Str
  timestamp : Nat
deriving DecidableEq

/-- LMDB `put` through heed: overwrite the value when the key is already
present, insert otherwise.  The engine's key ordering is abstracted away: the
association list is kept in insertion order, which none of the verified
properties depend on. -/
def dbPut {α : Type} (k : Str) (v : α) : List (Str × α) → List (Str × α)
  | [] => [(k, v)]
  | (k', v') :: rest =>
    if k' = k then (k, v) :: rest else (k', v') :: dbPut k v rest

/-- LMDB `get` through heed: the value stored under the key, if any. -/
def dbGet {α : Type} (k : Str) : List (Str × α) → Option α
  | [] => none
  | (k', v') :: rest => if k' = k then some v' else dbGet k rest

/-- LMDB `delete` through heed: remove the entry with the given key (the
engine's boolean "was present" result is produced but discarded by the
callers in rhyzome-heed.rs). -/
def dbDelete {α : Type} (k : Str) (db : List (Str × α)) : List (Str × α) :=
  db.filter (fun kv => decide (kv.1 ≠ k))

/-- State of the embedded backend (rhyzome-heed.rs): the `node` database and
the `relations` database. -/
structure HeedState where
  node_db : List (Str × Node)
  relations_db : List (Str × Relation)
deriving DecidableEq

def emptyHeed : HeedState := ⟨[], []⟩

/-- `add_node`: one write transaction putting the node under `node.id`. -/
def add_node (st : HeedState) (node : Node) : HeedState :=
  { st with node_db := dbPut node.id node st.node_db }

/-- `get_node`: one read transaction. -/
def get_node (st : HeedState) (node_id : Str) : Option Node :=
  dbGet node_id st.node_db

/-- `delete_node`: one write transaction; the source returns `Result<()>`,
modelled as the unit value paired with the new state. -/
def delete_node (st : HeedState) (node_id : Str) : HeedState × Unit :=
  ({ st with node_db := dbDelete node_id st.node_db }, ())

/-- `add_relation`: builds the composite key
`format!("{}_{}_{}", relation_name, node_id1, node_id2)` — with no
validation of the components — and puts the relation under it. -/
def add_relation (st : HeedState) (relation_name node_id1 node_id2 : Str)
    (relation : Relation) : HeedState :=
  let relation_key := relationKey relation_name node_id1 node_id2
  { st with relations_db := dbPut relation_key relation st.relations_db }

/-- `get_relation`: looks up the same composite key. -/
def get_relation (st : HeedState) (relation_name node_id1 node_id2 : Str) :
    Option Relation :=
  let relation_key := relationKey relation_name node_id1 node_id2
  dbGet relation_key st.relations_db

/-- Decoding every stored relation key in scan order, as one cursor pass of
`query_relations` does; the first undecodable key aborts the scan with its
error (the source's `?` on `parse_relation_key`). -/
def decodeKeys : List Str → Except String (List (Str × Str × Str))
  | [] => .ok []
  | k :: rest =>
    match parse_relation_key k with
    | .error e => .error e
    | .ok t =>
      match decodeKeys rest with
      | .error e => .error e
      | .ok ts => .ok (t :: ts)

/-- `query_relations`: scan the whole relations database, decode every key,
and keep the triples satisfying the filter.  (The source applies the filter
as it walks the cursor; since every key is decoded regardless of the filter,
filtering after the full decode is the same function.) -/
def query_relations (st : HeedState) (filter : Str × Str × Str → Bool) :
    Except String (List (Str × Str × Str)) :=
  (decodeKeys (st.relations_db.map Prod.fst)).map (List.filter filter)

/-- Outgoing edges of `node_id`: the `to` component of every stored relation
(of any name) whose `from` component is `node_id`, in scan order — the list
`dfs` in rhyzome-heed.rs obtains from
`query_relations(|(_, id1, _)| id1 == node_id)`. -/
def succs (rels : List (Str × Str × Str)) (node_id : Str) : List Str :=
  (rels.filter (fun t => decide (t.2.1 = node_id))).map (fun t => t.2.2)

/-- All node ids occurring in the decoded relations; only used as the
termination measure of the traversal loops (every id ever pushed beyond the
initial stack lies in it). -/
def nodeUniverse (rels : List (Str × Str × Str)) : List Str :=
  rels.map (fun t => t.2.1) ++ rels.map (fun t => t.2.2)

/-- The loop of `dfs` in rhyzome-heed.rs: pop the top of the stack
(`Vec::pop` takes the last element; the stack is modelled head-first, so the
head is the top); if the node is unvisited, append it to `visited` and push
the `to` of each of its outgoing relations — pushing in scan order leaves
the last relation's `to` on top, hence the reversed block. -/
def dfsLoop (rels : List (Str × Str × Str)) (visited stack : List Str) : List Str :=
  match stack with
  | [] => visited
  | node_id :: rest =>
    if node_id ∈ visited then dfsLoop rels visited rest
    else dfsLoop rels (visited ++ [node_id]) ((succs rels node_id).reverse ++ rest)
termination_by (((nodeUniverse rels).toFinset \ visited.toFinset).card, stack.length)
decreasing_by
  · exact Prod.Lex.right _ (Nat.lt_succ_self _)
  · rename Str => node_id
    rename List Str => rest
    rename_i hmem
    by_cases hu : node_id ∈ (nodeUniverse rels).toFinset
    · apply Prod.Lex.left
      apply Finset.card_lt_card
      have hfin : (visited ++ [node_id]).toFinset = insert node_id visited.toFinset := by
        rw [List.toFinset_append]
        simp [Finset.insert_eq, Finset.union_comm]
      rw [hfin]
      rw [Finset.ssubset_iff_of_subset
        (Finset.sdiff_subset_sdiff (Finset.Subset.refl _) (Finset.subset_insert _ _))]
      refine ⟨node_id, Finset.mem_sdiff.mpr ⟨hu, by simpa using hmem⟩, ?_⟩
      simp
    · have hsuccs : succs rels node_id = [] := by
        unfold succs
        simp only [List.map_eq_nil_iff, List.filter_eq_nil_iff, decide_eq_true_eq]
        intro t ht he
        exact hu (by
          simp only [nodeUniverse, List.toFinset_append, Finset.mem_union, List.mem_toFinset]
          exact Or.inl (List.mem_map.mpr ⟨t, ht, he⟩))
      have hfst : (nodeUniverse rels).toFinset \ (visited ++ [node_id]).toFinset
          = (nodeUniverse rels).toFinset \ visited.toFinset := by
        ext a
        simp only [Finset.mem_sdiff, List.toFinset_append, Finset.mem_union,
          List.mem_toFinset, List.mem_singleton, not_or]
        constructor
        · rintro ⟨ha, h1, _⟩
          exact ⟨ha, h1⟩
        · rintro ⟨ha, h1⟩
          refine ⟨ha, h1, ?_⟩
          intro he
          subst he
          exact hu (List.mem_toFinset.mpr ha)
      rw [hfst]
      exact Prod.Lex.right _ (by simp [hsuccs])

/-- The heed `dfs` on an already-decoded relation list, started from a given
node: empty visited list, the start node alone on the stack. -/
def dfsFrom (rels : List (Str × Str × Str)) (start_node_id : Str) : List Str :=
  dfsLoop rels [] [start_node_id]

/-- `dfs` in rhyzome-heed.rs.  Every iteration re-scans the unchanged
relations database through `query_relations`, so the key decoding is hoisted
out of the loop: if any stored key fails to decode, the first
`query_relations` call — and hence `dfs` — returns that error, and otherwise
every iteration sees the same decoded triples.  (`bfs` in the same file
calls `queue.pop(0)` on a `Vec<String>`; `Vec::pop` takes no argument, so
that function does not compile and no embedding is given for it.) -/
def dfs (st : HeedState) (start_node_id : Str) : Except String (List Str) :=
  (decodeKeys (st.relations_db.map Prod.fst)).map
    (fun rels => dfsFrom rels start_node_id)

/-- One step from `a` to `b` along some stored relation of any name — the
edges the heed `dfs` follows. -/
def heedEdge (rels : List (Str × Str × Str)) (a b : Str) : Prop :=
  b ∈ succs rels a

/-- Reflexive-transitive closure of a step relation: reachability. -/
inductive ReachBy (step : Str → Str → Prop) : Str → Str → Prop
  | refl (a : Str) : ReachBy step a a
  | tail {a b c : Str} : ReachBy step a b → step b c → ReachBy step a c

/-- A row of the sqlx backend's `relations` table
(`name TEXT, from_id TEXT, to_id TEXT` — no key, no uniqueness constraint). -/
structure Row where
  name : Str
  from_id : Str
  to_id : Str
deriving DecidableEq

/-- State of the relational backend (rhyzome-sqlx.rs): the `nodes` table
(`id TEXT PRIMARY KEY, value TEXT`) as an association list and the
`relations` table as a list of rows in insertion order. -/
structure SqlxState where
  nodes : List (Str × Str)
  relations : List Row
deriving DecidableEq

def emptySqlx : SqlxState := ⟨[], []⟩

/-- `set`: `INSERT ... ON CONFLICT (id) DO UPDATE SET value = $2` — an
upsert on the primary key. -/
def set (st : SqlxState) (id value : Str) : SqlxState :=
  { st with nodes := dbPut id value st.nodes }

/-- `get`: `SELECT value FROM nodes WHERE id = $1`, `fetch_optional`. -/
def get (st : SqlxState) (id : Str) : Option Str :=
  dbGet id st.nodes

/-- `delete`: `DELETE FROM nodes WHERE id = $1`; returns `Result<()>`,
modelled as the unit value paired with the new state. -/
def delete (st : SqlxState) (id : Str) : SqlxState × Unit :=
  ({ st with nodes := dbDelete id st.nodes }, ())

/-- `relate`: a bare `INSERT INTO relations (name, from_id, to_id)`.  Note
the bind order in the source: `$1` is `relation_name`, `$2` is `from_id`,
`$3` is `to_id`.  With no uniqueness constraint, every call appends a row. -/
def relate (st : SqlxState) (from_id relation_name to_id : Str) : SqlxState :=
  { st with relations := st.relations ++ [⟨relation_name, from_id, to_id⟩] }

/-- The SELECT behind `get_related`:
`SELECT to_id FROM relations WHERE from_id = $1 AND name = $2`, in table
order. -/
def selectRelated (rows : List Row) (id relation_name : Str) : List Str :=
  (rows.filter (fun r => decide (r.from_id = id ∧ r.name = relation_name))).map Row.to_id

/-- `get_related` in rhyzome-sqlx.rs. -/
def get_related (st : SqlxState) (id relation_name : Str) : List Str :=
  selectRelated st.relations id relation_name

/-- The relation name the sqlx `dfs` and `bfs` hard-code: `"related"`. -/
def relatedName : Str := "related".toList

/-- All node ids occurring in the relations table; only used as the
termination measure of the traversal loops. -/
def rowUniverse (rows : List Row) : List Str :=
  rows.map Row.from_id ++ rows.map Row.to_id

/-- The inner for-loop of the sqlx `dfs`: for each fetched related id in
order, if it is not in `visited`, insert it into `visited` and push it onto
the stack (`Vec::push`; the stack is modelled head-first, so pushing is
consing). -/
def pushFreshStack (visited stack : List Str) : List Str → List Str × List Str
  | [] => (visited, stack)
  | r :: rs =>
    if r ∈ visited then pushFreshStack visited stack rs
    else pushFreshStack (visited ++ [r]) (r :: stack) rs

/-- The inner for-loop of the sqlx `bfs`: identical, except the fresh id is
pushed at the back of the queue (`VecDeque::push_back`; the queue is
modelled head-first, so pushing appends). -/
def pushFreshQueue (visited queue : List Str) : List Str → List Str × List Str
  | [] => (visited, queue)
  | r :: rs =>
    if r ∈ visited then pushFreshQueue visited queue rs
    else pushFreshQueue (visited ++ [r]) (queue ++ [r]) rs

/-- The loop of `dfs` in rhyzome-sqlx.rs: pop the top of the stack, append
it to the result, then fetch its `"related"` successors and push the fresh
ones (marking them visited as they are pushed). -/
def sqlxDfsLoop (rows : List Row) (visited stack result : List Str) : List Str :=
  match stack with
  | [] => result
  | id :: rest =>
    sqlxDfsLoop rows (pushFreshStack visited rest (selectRelated rows id relatedName)).1
      (pushFreshStack visited rest (selectRelated rows id relatedName)).2 (result ++ [id])
termination_by (((rowUniverse rows).toFinset \ visited.toFinset).card, stack.length)
decreasing_by
  have hmono : ∀ (rs visited stack : List Str),
      ∀ x ∈ visited, x ∈ (pushFreshStack visited stack rs).1 := by
    intro rs
    induction rs with
    | nil => intro visited stack x hx; simpa [pushFreshStack] using hx
    | cons r rs ih =>
      intro visited stack x hx
      by_cases hr : r ∈ visited
      · simpa [pushFreshStack, hr] using ih visited stack x hx
      · simpa [pushFreshStack, hr] using ih (visited ++ [r]) (r :: stack) x (by simp [hx])
  have hcases : ∀ (rs visited stack : List Str),
      pushFreshStack visited stack rs = (visited, stack) ∨
      ∃ r, r ∈ rs ∧ r ∉ visited ∧ r ∈ (pushFreshStack visited stack rs).1 := by
    intro rs
    induction rs with
    | nil => intro visited stack; left; rfl
    | cons r rs ih =>
      intro visited stack
      by_cases hr : r ∈ visited
      · rcases ih visited stack with h | ⟨r', h1, h2, h3⟩
        · left; simpa [pushFreshStack, hr] using h
        · right
          refine ⟨r', by simp [h1], h2, ?_⟩
          simpa [pushFreshStack, hr] using h3
      · right
        refine ⟨r, by simp, hr, ?_⟩
        have := hmono rs (visited ++ [r]) (r :: stack) r (by simp)
        simpa [pushFreshStack, hr] using this
  rename Str => pid
  rename List Str => prest
  rcases hcases (selectRelated rows pid relatedName) visited prest with heq | ⟨x, hxmem, hxvis, hxin⟩
  · rw [heq]
    exact Prod.Lex.right _ (Nat.lt_succ_self _)
  · apply Prod.Lex.left
    apply Finset.card_lt_card
    rw [Finset.ssubset_iff_of_subset (Finset.sdiff_subset_sdiff (Finset.Subset.refl _)
      (fun y hy => List.mem_toFinset.mpr
        (hmono (selectRelated rows pid relatedName) visited prest y (List.mem_toFinset.mp hy))))]
    have hU : x ∈ (rowUniverse rows).toFinset := by
      rw [List.mem_toFinset]
      unfold rowUniverse
      have hex : ∃ a, (a ∈ rows ∧ a.from_id = pid ∧ a.name = relatedName) ∧ a.to_id = x := by
        simpa [selectRelated] using hxmem
      rcases hex with ⟨row, ⟨hrow, _, _⟩, hto⟩
      exact List.mem_append.mpr (Or.inr (List.mem_map.mpr ⟨row, hrow, hto⟩))
    refine ⟨x, Finset.mem_sdiff.mpr ⟨hU, by simpa using hxvis⟩, ?_⟩
    intro hcontra
    exact (Finset.mem_sdiff.mp hcontra).2 (List.mem_toFinset.mpr hxin)

/-- The loop of `bfs` in rhyzome-sqlx.rs: dequeue the front of the queue
(`VecDeque::pop_front`), append it to the result, then fetch its `"related"`
successors and enqueue the fresh ones at the back. -/
def sqlxBfsLoop (rows : List Row) (visited queue result : List Str) : List Str :=
  match queue with
  | [] => result
  | id :: rest =>
    sqlxBfsLoop rows (pushFreshQueue visited rest (selectRelated rows id relatedName)).1
      (pushFreshQueue visited rest (selectRelated rows id relatedName)).2 (result ++ [id])
termination_by (((rowUniverse rows).toFinset \ visited.toFinset).card, queue.length)
decreasing_by
  have hmono : ∀ (rs visited queue : List Str),
      ∀ x ∈ visited, x ∈ (pushFreshQueue visited queue rs).1 := by
    intro rs
    induction rs with
    | nil => intro visited queue x hx; simpa [pushFreshQueue] using hx
    | cons r rs ih =>
      intro visited queue x hx
      by_cases hr : r ∈ visited
      · simpa [pushFreshQueue, hr] using ih visited queue x hx
      · simpa [pushFreshQueue, hr] using ih (visited ++ [r]) (queue ++ [r]) x (by simp [hx])
  have hcases : ∀ (rs visited queue : List Str),
      pushFreshQueue visited queue rs = (visited, queue) ∨
      ∃ r, r ∈ rs ∧ r ∉ visited ∧ r ∈ (pushFreshQueue visited queue rs).1 := by
    intro rs
    induction rs with
    | nil => intro visited queue; left; rfl
    | cons r rs ih =>
      intro visited queue
      by_cases hr : r ∈ visited
      · rcases ih visited queue with h | ⟨r', h1, h2, h3⟩
        · left; simpa [pushFreshQueue, hr] using h
        · right
          refine ⟨r', by simp [h1], h2, ?_⟩
          simpa [pushFreshQueue, hr] using h3
      · right
        refine ⟨r, by simp, hr, ?_⟩
        have := hmono rs (visited ++ [r]) (queue ++ [r]) r (by simp)
        simpa [pushFreshQueue, hr] using this
  rename Str => pid
  rename List Str => prest
  rcases hcases (selectRelated rows pid relatedName) visited prest with heq | ⟨x, hxmem, hxvis, hxin⟩
  · rw [heq]
    exact Prod.Lex.right _ (Nat.lt_succ_self _)
  · apply Prod.Lex.left
    apply Finset.card_lt_card
    rw [Finset.ssubset_iff_of_subset (Finset.sdiff_subset_sdiff (Finset.Subset.refl _)
      (fun y hy => List.mem_toFinset.mpr
        (hmono (selectRelated rows pid relatedName) visited prest y (List.mem_toFinset.mp hy))))]
    have hU : x ∈ (rowUniverse rows).toFinset := by
      rw [List.mem_toFinset]
      unfold rowUniverse
      have hex : ∃ a, (a ∈ rows ∧ a.from_id = pid ∧ a.name = relatedName) ∧ a.to_id = x := by
        simpa [selectRelated] using hxmem
      rcases hex with ⟨row, ⟨hrow, _, _⟩, hto⟩
      exact List.mem_append.mpr (Or.inr (List.mem_map.mpr ⟨row, hrow, hto⟩))
    refine ⟨x, Finset.mem_sdiff.mpr ⟨hU, by simpa using hxvis⟩, ?_⟩
    intro hcontra
    exact (Finset.mem_sdiff.mp hcontra).2 (List.mem_toFinset.mpr hxin)

/-- The sqlx `dfs` on a given relations table: the start id is inserted into
`visited` and pushed before the loop runs. -/
def sqlxDfsFrom (rows : List Row) (start_id : Str) : List Str :=
  sqlxDfsLoop rows [start_id] [start_id] []

/-- `dfs` in rhyzome-sqlx.rs. -/
def sqlxDfs (st : SqlxState) (start_id : Str) : List Str :=
  sqlxDfsFrom st.relations start_id

/-- The sqlx `bfs` on a given relations table. -/
def sqlxBfsFrom (rows : List Row) (start_id : Str) : List Str :=
  sqlxBfsLoop rows [start_id] [start_id] []

/-- `bfs` in rhyzome-sqlx.rs. -/
def sqlxBfs (st : SqlxState) (start_id : Str) : List Str :=
  sqlxBfsFrom st.relations start_id

/-- One step from `a` to `b` along a stored row named `"related"` — the only
edges the sqlx `dfs` and `bfs` follow. -/
def relatedEdge (rows : List Row) (a b : Str) : Prop :=
  b ∈ selectRelated rows a relatedName

/-- Concrete fixtures used by the closed theorems below. -/
def r1 : Relation := ⟨"p1".toList, 1⟩

def r2 : Relation := ⟨"p2".toList, 2⟩

def nodeA : Node := ⟨"a".toList, "x".toList, 0⟩

def heedWithA : HeedState := add_node emptyHeed nodeA

def sqlxWithA : SqlxState := set emptySqlx "a".toList "x".toList

/-- The spec's example graph: relations A→B, B→C, A→C (named `"related"` so
the sqlx traversals follow them). -/
def exampleRows : List Row :=
  [⟨relatedName, "A".toList, "B".toList⟩,
   ⟨relatedName, "B".toList, "C".toList⟩,
   ⟨relatedName, "A".toList, "C".toList⟩]

/-! ## Theorems -/

theorem splitChar_ne_nil (d : Char) (s : Str) : splitChar d s ≠ [] := by
  cases s with
  | nil => simp [splitChar]
  | cons c cs =>
    simp only [splitChar]
    split
    · simp
    · cases h : splitChar d cs <;> simp

theorem splitChar_of_not_mem (d : Char) (s : Str) (h : d ∉ s) :
    splitChar d s = [s] := by
  induction s with
  | nil => simp [splitChar]
  | cons c cs ih =>
    simp only [List.mem_cons, not_or] at h
    simp only [splitChar]
    rw [if_neg (fun hc => h.1 hc.symm), ih h.2]

theorem splitChar_append (d : Char) (s rest : Str) (h : d ∉ s) :
    splitChar d (s ++ d :: rest) = s :: splitChar d rest := by
  induction s with
  | nil => simp [splitChar]
  | cons c cs ih =>
    simp only [List.mem_cons, not_or] at h
    simp only [List.cons_append, splitChar]
    rw [if_neg (fun hc => h.1 hc.symm), List.append_eq, ih h.2]

theorem splitChar_length (d : Char) (s : Str) :
    (splitChar d s).length = s.count d + 1 := by
  induction s with
  | nil => simp [splitChar]
  | cons c cs ih =>
    simp only [splitChar]
    by_cases hc : c = d
    · rw [if_pos hc]
      simp [List.count_cons, hc, ih]
    · rw [if_neg hc]
      cases hs : splitChar d cs with
      | nil => exact absurd hs (splitChar_ne_nil d cs)
      | cons p ps =>
        have := ih
        rw [hs] at this
        simp only [List.length_cons] at this ⊢
        simp [List.count_cons, hc, this]

/-- Splitting the composite key of three delimiter-free components recovers
exactly the three components. -/
theorem splitChar_relationKey (name id1 id2 : Str)
    (h1 : delim ∉ name) (h2 : delim ∉ id1) (h3 : delim ∉ id2) :
    splitChar delim (relationKey name id1 id2) = [name, id1, id2] := by
  unfold relationKey
  rw [splitChar_append delim name _ h1, splitChar_append delim id1 _ h2,
    splitChar_of_not_mem delim id2 h3]

theorem dbGet_dbPut_self {α : Type} (k : Str) (v : α) (db : List (Str × α)) :
    dbGet k (dbPut k v db) = some v := by
  induction db with
  | nil => simp [dbPut, dbGet]
  | cons kv rest ih =>
    obtain ⟨k', v'⟩ := kv
    by_cases h : k' = k
    · simp [dbPut, dbGet, h]
    · simp [dbPut, dbGet, h, ih]

theorem dbDelete_cons {α : Type} (k k' : Str) (v' : α) (rest : List (Str × α)) :
    dbDelete k ((k', v') :: rest) =
      if k' = k then dbDelete k rest else (k', v') :: dbDelete k rest := by
  by_cases h : k' = k <;> simp [dbDelete, h]

theorem dbGet_dbDelete_self {α : Type} (k : Str) (db : List (Str × α)) :
    dbGet k (dbDelete k db) = none := by
  induction db with
  | nil => simp [dbDelete, dbGet]
  | cons kv rest ih =>
    obtain ⟨k', v'⟩ := kv
    rw [dbDelete_cons]
    by_cases h : k' = k
    · rw [if_pos h]
      exact ih
    · rw [if_neg h]
      simp [dbGet, h, ih]

theorem dbGet_dbDelete_other {α : Type} (k j : Str) (db : List (Str × α))
    (h : j ≠ k) : dbGet j (dbDelete k db) = dbGet j db := by
  induction db with
  | nil => simp [dbDelete, dbGet]
  | cons kv rest ih =>
    obtain ⟨k', v'⟩ := kv
    rw [dbDelete_cons]
    by_cases hk : k' = k
    · rw [if_pos hk]
      rw [ih]
      have hj : k' ≠ j := fun hkj => h (hkj ▸ hk)
      simp [dbGet, hj]
    · rw [if_neg hk]
      by_cases hj : k' = j <;> simp [dbGet, hj, ih]

/-- C1: for relation name / from / to strings that do not contain the
delimiter `'_'`, decoding (`parse_relation_key`) the composite key that
`add_relation` builds returns exactly the original triple. -/
theorem claim1_codec_roundtrip (name id1 id2 : Str)
    (h1 : delim ∉ name) (h2 : delim ∉ id1) (h3 : delim ∉ id2) :
    parse_relation_key (relationKey name id1 id2) = .ok (name, id1, id2) := by
  unfold parse_relation_key
  rw [splitChar_relationKey name id1 id2 h1 h2 h3]

/-- Witness for C1 at the concrete triple ("likes", "a", "b"). -/
theorem claim1_codec_roundtrip_witness :
    parse_relation_key (relationKey "likes".toList "a".toList "b".toList) =
      .ok ("likes".toList, "a".toList, "b".toList) :=
  claim1_codec_roundtrip "likes".toList "a".toList "b".toList
    (by decide) (by decide) (by decide)

/-- C5 (the code lacks the claimed check): `add_relation` performs no
delimiter validation.  With relation name "a_b" — which contains the
delimiter — the relation is stored successfully under the joined key
"a_b_c_d" rather than rejected; the distinct triple ("a", "b_c", "d") joins
to the very same key, so the record is silently retrievable (and would be
overwritten) under that other triple; and the stored key no longer decodes
at all (`parse_relation_key` fails on its four parts). -/
theorem claim5_encode_not_validated :
    get_relation (add_relation emptyHeed "a_b".toList "c".toList "d".toList r1)
        "a_b".toList "c".toList "d".toList = some r1 ∧
    relationKey "a_b".toList "c".toList "d".toList =
      relationKey "a".toList "b_c".toList "d".toList ∧
    get_relation (add_relation emptyHeed "a_b".toList "c".toList "d".toList r1)
        "a".toList "b_c".toList "d".toList = some r1 ∧
    parse_relation_key (relationKey "a_b".toList "c".toList "d".toList) =
      .error "Invalid relation key" := by
  refine ⟨by decide, by decide, by decide, by decide⟩

/-- C6 counterexample: decoding the key "a__b", whose middle part is empty,
succeeds with the triple ("a", "", "b") — the source checks only that the
split yields exactly three parts, never that they are non-empty, so the
claim's "three non-empty parts" condition does not hold of the code. -/
theorem claim6_empty_part_decodes :
    parse_relation_key "a__b".toList = .ok ("a".toList, [], "b".toList) := rfl

/-- C6 (amended): decode succeeds iff splitting on the delimiter yields
exactly three parts — equivalently, iff the key contains exactly two
delimiter characters — with empty parts allowed; otherwise it fails. -/
theorem claim6_decode_iff_three_parts (key : Str) :
    (∃ t, parse_relation_key key = .ok t) ↔ key.count delim = 2 := by
  have hlen := splitChar_length delim key
  unfold parse_relation_key
  rcases hsp : splitChar delim key with _ | ⟨a, _ | ⟨b, _ | ⟨c, _ | ⟨d, l⟩⟩⟩⟩ <;>
    rw [hsp] at hlen <;>
    simp only [List.length_nil, List.length_cons] at hlen <;>
    simp <;>
    omega

/-- Witness for C6's amended theorem at the concrete key "likes_a_b". -/
theorem claim6_decode_iff_three_parts_witness :
    (∃ t, parse_relation_key "likes_a_b".toList = .ok t) ↔
      ("likes_a_b".toList).count delim = 2 :=
  claim6_decode_iff_three_parts "likes_a_b".toList

/-- C7 counterexample: node delete does not return a boolean reporting
whether a record existed.  In both backends the operation returns `()`
(`Result<()>` in the source): deleting id "a" from a store that contains it
and from the empty store returns identical values although existence
differs, so the claimed boolean result does not exist in the code. -/
theorem claim7_delete_returns_unit :
    (delete_node heedWithA "a".toList).2 = (delete_node emptyHeed "a".toList).2 ∧
    get_node heedWithA "a".toList ≠ none ∧
    get_node emptyHeed "a".toList = none ∧
    (delete sqlxWithA "a".toList).2 = (delete emptySqlx "a".toList).2 ∧
    get sqlxWithA "a".toList ≠ none ∧
    get emptySqlx "a".toList = none := by
  refine ⟨rfl, by decide, by decide, rfl, by decide, by decide⟩

/-- C7 (amended): in both backends, delete removes the record with the given
id when present, leaves every other record unchanged, and completes normally
— returning `()`, with no existence indicator — whether or not the record
existed. -/
theorem claim7_delete_spec (hst : HeedState) (sst : SqlxState) (id : Str) :
    get_node (delete_node hst id).1 id = none ∧
    (∀ j, j ≠ id → get_node (delete_node hst id).1 j = get_node hst j) ∧
    (delete_node hst id).2 = () ∧
    get (delete sst id).1 id = none ∧
    (∀ j, j ≠ id → get (delete sst id).1 j = get sst j) ∧
    (delete sst id).2 = () :=
  ⟨dbGet_dbDelete_self id hst.node_db,
   fun j hj => dbGet_dbDelete_other id j hst.node_db hj,
   rfl,
   dbGet_dbDelete_self id sst.nodes,
   fun j hj => dbGet_dbDelete_other id j sst.nodes hj,
   rfl⟩

/-- Witness for C7's amended theorem: deleting "a" removes it and leaves
"b" untouched, in a concrete store. -/
theorem claim7_delete_spec_witness :
    get_node (delete_node heedWithA "a".toList).1 "a".toList = none ∧
    get_node (delete_node heedWithA "a".toList).1 "b".toList =
      get_node heedWithA "b".toList :=
  ⟨(claim7_delete_spec heedWithA emptySqlx "a".toList).1,
   (claim7_delete_spec heedWithA emptySqlx "a".toList).2.1 "b".toList (by decide)⟩

/-- C8: put followed by get returns exactly the stored payload, in both
backends: heed `add_node` then `get_node` at `node.id`, and sqlx `set` then
`get` at the same id. -/
theorem claim8_put_get_roundtrip (hst : HeedState) (node : Node)
    (sst : SqlxState) (id value : Str) :
    get_node (add_node hst node) node.id = some node ∧
    get (set sst id value) id = some value :=
  ⟨dbGet_dbPut_self node.id node hst.node_db,
   dbGet_dbPut_self id value sst.nodes⟩

/-- C9: deleting a node does not touch the relations database at all, so
every stored relation — in particular one whose from or to is the deleted
id — is still retrievable by `get_relation` with its triple (no cascade). -/
theorem claim9_delete_node_no_cascade (st : HeedState)
    (node_id relation_name id1 id2 : Str) :
    get_relation (delete_node st node_id).1 relation_name id1 id2 =
      get_relation st relation_name id1 id2 ∧
    (delete_node st node_id).1.relations_db = st.relations_db :=
  ⟨rfl, rfl⟩

/-- C3 (the sqlx side lacks the claimed overwrite): in the heed backend a
second `add_relation` to the same triple overwrites, leaving exactly one
stored record whose payload is the second one — but in the sqlx backend
`relate` is a bare INSERT into a table with no uniqueness constraint, so
writing the same triple twice leaves two identical stored rows. -/
theorem claim3_second_write :
    get_relation (add_relation (add_relation emptyHeed "likes".toList "a".toList
        "b".toList r1) "likes".toList "a".toList "b".toList r2)
      "likes".toList "a".toList "b".toList = some r2 ∧
    ((add_relation (add_relation emptyHeed "likes".toList "a".toList "b".toList r1)
        "likes".toList "a".toList "b".toList r2).relations_db.filter
      (fun kv => decide (kv.1 = relationKey "likes".toList "a".toList "b".toList))).length
      = 1 ∧
    ((relate (relate emptySqlx "a".toList "likes".toList "b".toList)
        "a".toList "likes".toList "b".toList).relations.filter
      (fun r => decide (r = ⟨"likes".toList, "a".toList, "b".toList⟩))).length = 2 := by
  refine ⟨by decide, by decide, by decide⟩

/-- Prepending a step to a reachability chain. -/
theorem reachBy_head {step : Str → Str → Prop} {a b c : Str}
    (h : step a b) (hr : ReachBy step b c) : ReachBy step a c := by
  induction hr with
  | refl => exact ReachBy.tail (ReachBy.refl a) h
  | tail _ h2 ih => exact ReachBy.tail ih h2

theorem dfsLoop_prefix (rels : List (Str × Str × Str)) (visited stack : List Str) :
    ∃ t, dfsLoop rels visited stack = visited ++ t := by
  induction visited, stack using dfsLoop.induct rels with
  | case1 visited => exact ⟨[], by simp [dfsLoop]⟩
  | case2 visited node_id rest hmem ih =>
    rcases ih with ⟨t, ht⟩
    refine ⟨t, ?_⟩
    rw [dfsLoop, if_pos hmem, ht]
  | case3 visited node_id rest hmem ih =>
    rcases ih with ⟨t, ht⟩
    refine ⟨[node_id] ++ t, ?_⟩
    rw [dfsLoop, if_neg hmem, ht]
    simp

theorem dfsLoop_mem_stack (rels : List (Str × Str × Str)) (visited stack : List Str) :
    ∀ x ∈ stack, x ∈ dfsLoop rels visited stack := by
  induction visited, stack using dfsLoop.induct rels with
  | case1 visited => intro x hx; simp at hx
  | case2 visited node_id rest hmem ih =>
    intro x hx
    rw [dfsLoop, if_pos hmem]
    rcases List.mem_cons.mp hx with he | hr
    · rcases dfsLoop_prefix rels visited rest with ⟨t, ht⟩
      rw [ht]
      exact List.mem_append_left _ (he ▸ hmem)
    · exact ih x hr
  | case3 visited node_id rest hmem ih =>
    intro x hx
    rw [dfsLoop, if_neg hmem]
    rcases List.mem_cons.mp hx with he | hr
    · rcases dfsLoop_prefix rels (visited ++ [node_id])
        ((succs rels node_id).reverse ++ rest) with ⟨t, ht⟩
      rw [ht]
      exact List.mem_append_left _ (by simp [he])
    · exact ih x (List.mem_append_right _ hr)

theorem dfsLoop_nodup (rels : List (Str × Str × Str)) (visited stack : List Str) :
    visited.Nodup → (dfsLoop rels visited stack).Nodup := by
  induction visited, stack using dfsLoop.induct rels with
  | case1 visited => intro h; simpa [dfsLoop] using h
  | case2 visited node_id rest hmem ih =>
    intro h
    rw [dfsLoop, if_pos hmem]
    exact ih h
  | case3 visited node_id rest hmem ih =>
    intro h
    rw [dfsLoop, if_neg hmem]
    exact ih (by simp [List.nodup_append, h, hmem])

theorem dfsLoop_sound (rels : List (Str × Str × Str)) (visited stack : List Str) :
    ∀ x ∈ dfsLoop rels visited stack,
      x ∈ visited ∨ ∃ s ∈ stack, ReachBy (heedEdge rels) s x := by
  induction visited, stack using dfsLoop.induct rels with
  | case1 visited =>
    intro x hx
    rw [dfsLoop] at hx
    exact Or.inl hx
  | case2 visited node_id rest hmem ih =>
    intro x hx
    rw [dfsLoop, if_pos hmem] at hx
    rcases ih x hx with h | ⟨s, hs, hr⟩
    · exact Or.inl h
    · exact Or.inr ⟨s, List.mem_cons_of_mem _ hs, hr⟩
  | case3 visited node_id rest hmem ih =>
    intro x hx
    rw [dfsLoop, if_neg hmem] at hx
    rcases ih x hx with h | ⟨s, hs, hr⟩
    · rcases List.mem_append.mp h with h1 | h2
      · exact Or.inl h1
      · refine Or.inr ⟨node_id, List.mem_cons_self _ _, ?_⟩
        have : x = node_id := by simpa using h2
        exact this ▸ ReachBy.refl x
    · rcases List.mem_append.mp hs with h1 | h2
      · refine Or.inr ⟨node_id, List.mem_cons_self _ _, ?_⟩
        have hedge : heedEdge rels node_id s := by
          simpa [heedEdge] using List.mem_reverse.mp h1
        exact reachBy_head hedge hr
      · exact Or.inr ⟨s, List.mem_cons_of_mem _ h2, hr⟩

theorem dfsLoop_closed (rels : List (Str × Str × Str)) (visited stack : List Str) :
    ∀ x ∈ dfsLoop rels visited stack, x ∉ visited →
      ∀ y ∈ succs rels x, y ∈ dfsLoop rels visited stack := by
  induction visited, stack using dfsLoop.induct rels with
  | case1 visited =>
    intro x hx hnx
    rw [dfsLoop] at hx
    exact absurd hx hnx
  | case2 visited node_id rest hmem ih =>
    intro x hx hnx y hy
    rw [dfsLoop, if_pos hmem] at hx ⊢
    exact ih x hx hnx y hy
  | case3 visited node_id rest hmem ih =>
    intro x hx hnx y hy
    rw [dfsLoop, if_neg hmem] at hx ⊢
    by_cases hxe : x = node_id
    · subst hxe
      exact dfsLoop_mem_stack rels (visited ++ [x]) _ y
        (List.mem_append_left _ (List.mem_reverse.mpr hy))
    · exact ih x hx (by simp [hnx, hxe]) y hy

theorem dfsFrom_eq_cons (rels : List (Str × Str × Str)) (start_node_id : Str) :
    ∃ t, dfsFrom rels start_node_id = start_node_id :: t := by
  unfold dfsFrom
  rw [dfsLoop, if_neg (List.not_mem_nil start_node_id)]
  rcases dfsLoop_prefix rels ([] ++ [start_node_id])
    ((succs rels start_node_id).reverse ++ []) with ⟨t, ht⟩
  exact ⟨t, by rw [ht]; simp⟩

theorem dfsFrom_nodup (rels : List (Str × Str × Str)) (start_node_id : Str) :
    (dfsFrom rels start_node_id).Nodup :=
  dfsLoop_nodup rels [] [start_node_id] List.nodup_nil

theorem dfsFrom_mem_iff (rels : List (Str × Str × Str)) (start_node_id x : Str) :
    x ∈ dfsFrom rels start_node_id ↔ ReachBy (heedEdge rels) start_node_id x := by
  constructor
  · intro hx
    rcases dfsLoop_sound rels [] [start_node_id] x hx with h | ⟨s, hs, hr⟩
    · simp at h
    · have : s = start_node_id := by simpa using hs
      exact this ▸ hr
  · intro hr
    induction hr with
    | refl => exact dfsLoop_mem_stack rels [] [start_node_id] _ (by simp)
    | tail _ h2 ih =>
      exact dfsLoop_closed rels [] [start_node_id] _ ih (List.not_mem_nil _) _ h2

theorem pushFreshStack_spec (rs : List Str) : ∀ visited stack : List Str,
    ∃ extra, pushFreshStack visited stack rs = (visited ++ extra, extra.reverse ++ stack) ∧
      extra.Nodup ∧ ∀ r ∈ extra, r ∈ rs ∧ r ∉ visited := by
  induction rs with
  | nil => intro visited stack; exact ⟨[], by simp [pushFreshStack]⟩
  | cons r rs ih =>
    intro visited stack
    by_cases hr : r ∈ visited
    · rcases ih visited stack with ⟨extra, heq, hnd, hmem⟩
      refine ⟨extra, ?_, hnd, ?_⟩
      · rw [pushFreshStack, if_pos hr]
        exact heq
      · intro a ha
        exact ⟨List.mem_cons_of_mem _ (hmem a ha).1, (hmem a ha).2⟩
    · rcases ih (visited ++ [r]) (r :: stack) with ⟨extra, heq, hnd, hmem⟩
      refine ⟨r :: extra, ?_, ?_, ?_⟩
      · rw [pushFreshStack, if_neg hr, heq]
        simp
      · exact List.nodup_cons.mpr ⟨fun hc => (hmem r hc).2 (by simp), hnd⟩
      · intro a ha
        rcases List.mem_cons.mp ha with he | hm
        · exact ⟨by simp [he], he ▸ hr⟩
        · exact ⟨List.mem_cons_of_mem _ (hmem a hm).1,
            fun hv => (hmem a hm).2 (List.mem_append_left _ hv)⟩

theorem pushFreshQueue_spec (rs : List Str) : ∀ visited queue : List Str,
    ∃ extra, pushFreshQueue visited queue rs = (visited ++ extra, queue ++ extra) ∧
      extra.Nodup ∧ ∀ r ∈ extra, r ∈ rs ∧ r ∉ visited := by
  induction rs with
  | nil => intro visited queue; exact ⟨[], by simp [pushFreshQueue]⟩
  | cons r rs ih =>
    intro visited queue
    by_cases hr : r ∈ visited
    · rcases ih visited queue with ⟨extra, heq, hnd, hmem⟩
      refine ⟨extra, ?_, hnd, ?_⟩
      · rw [pushFreshQueue, if_pos hr]
        exact heq
      · intro a ha
        exact ⟨List.mem_cons_of_mem _ (hmem a ha).1, (hmem a ha).2⟩
    · rcases ih (visited ++ [r]) (queue ++ [r]) with ⟨extra, heq, hnd, hmem⟩
      refine ⟨r :: extra, ?_, ?_, ?_⟩
      · rw [pushFreshQueue, if_neg hr, heq]
        simp
      · exact List.nodup_cons.mpr ⟨fun hc => (hmem r hc).2 (by simp), hnd⟩
      · intro a ha
        rcases List.mem_cons.mp ha with he | hm
        · exact ⟨by simp [he], he ▸ hr⟩
        · exact ⟨List.mem_cons_of_mem _ (hmem a hm).1,
            fun hv => (hmem a hm).2 (List.mem_append_left _ hv)⟩

theorem pushFreshStack_mem_rel (rs : List Str) : ∀ visited stack : List Str,
    ∀ y ∈ rs, y ∈ (pushFreshStack visited stack rs).1 := by
  induction rs with
  | nil => intro _ _ y hy; simp at hy
  | cons r rs ih =>
    intro visited stack y hy
    by_cases hr : r ∈ visited
    · rw [pushFreshStack, if_pos hr]
      rcases List.mem_cons.mp hy with he | hm
      · rcases pushFreshStack_spec rs visited stack with ⟨extra, heq, _, _⟩
        rw [heq]
        exact List.mem_append_left _ (he ▸ hr)
      · exact ih visited stack y hm
    · rw [pushFreshStack, if_neg hr]
      rcases List.mem_cons.mp hy with he | hm
      · rcases pushFreshStack_spec rs (visited ++ [r]) (r :: stack) with ⟨extra, heq, _, _⟩
        rw [heq]
        exact List.mem_append_left _ (by simp [he])
      · exact ih _ _ y hm

theorem pushFreshQueue_mem_rel (rs : List Str) : ∀ visited queue : List Str,
    ∀ y ∈ rs, y ∈ (pushFreshQueue visited queue rs).1 := by
  induction rs with
  | nil => intro _ _ y hy; simp at hy
  | cons r rs ih =>
    intro visited queue y hy
    by_cases hr : r ∈ visited
    · rw [pushFreshQueue, if_pos hr]
      rcases List.mem_cons.mp hy with he | hm
      · rcases pushFreshQueue_spec rs visited queue with ⟨extra, heq, _, _⟩
        rw [heq]
        exact List.mem_append_left _ (he ▸ hr)
      · exact ih visited queue y hm
    · rw [pushFreshQueue, if_neg hr]
      rcases List.mem_cons.mp hy with he | hm
      · rcases pushFreshQueue_spec rs (visited ++ [r]) (queue ++ [r]) with ⟨extra, heq, _, _⟩
        rw [heq]
        exact List.mem_append_left _ (by simp [he])
      · exact ih _ _ y hm

theorem sqlxDfsLoop_prefix (rows : List Row) (visited stack result : List Str) :
    ∃ t, sqlxDfsLoop rows visited stack result = result ++ t := by
  induction visited, stack, result using sqlxDfsLoop.induct rows with
  | case1 visited result => exact ⟨[], by simp [sqlxDfsLoop]⟩
  | case2 visited result id rest ih =>
    rcases ih with ⟨t, ht⟩
    refine ⟨[id] ++ t, ?_⟩
    rw [sqlxDfsLoop, ht]
    simp

theorem sqlxDfsLoop_mem_stack (rows : List Row) (visited stack result : List Str) :
    ∀ x ∈ stack, x ∈ sqlxDfsLoop rows visited stack result := by
  induction visited, stack, result using sqlxDfsLoop.induct rows with
  | case1 visited result => intro x hx; simp at hx
  | case2 visited result id rest ih =>
    intro x hx
    rw [sqlxDfsLoop]
    rcases List.mem_cons.mp hx with he | hm
    · rcases sqlxDfsLoop_prefix rows
        (pushFreshStack visited rest (selectRelated rows id relatedName)).1
        (pushFreshStack visited rest (selectRelated rows id relatedName)).2
        (result ++ [id]) with ⟨t, ht⟩
      rw [ht]
      exact List.mem_append_left _ (by simp [he])
    · rcases pushFreshStack_spec (selectRelated rows id relatedName) visited rest
        with ⟨extra, heq, _, _⟩
      apply ih
      rw [heq]
      exact List.mem_append_right _ hm

theorem sqlxDfsLoop_nodup (rows : List Row) (visited stack result : List Str) :
    (result ++ stack).Nodup → (∀ x ∈ result ++ stack, x ∈ visited) →
    (sqlxDfsLoop rows visited stack result).Nodup := by
  induction visited, stack, result using sqlxDfsLoop.induct rows with
  | case1 visited result =>
    intro h1 _
    rw [sqlxDfsLoop]
    simpa using h1
  | case2 visited result id rest ih =>
    intro h1 h2
    rw [sqlxDfsLoop]
    rcases pushFreshStack_spec (selectRelated rows id relatedName) visited rest
      with ⟨extra, heq, hnd, hmem⟩
    apply ih
    · rw [heq]
      show ((result ++ [id]) ++ (extra.reverse ++ rest)).Nodup
      have hperm : List.Perm ((result ++ [id]) ++ (extra.reverse ++ rest))
          (((result ++ [id]) ++ rest) ++ extra.reverse) := by
        have hp := List.Perm.append_left (result ++ [id])
          (List.perm_append_comm :
            List.Perm (extra.reverse ++ rest) (rest ++ extra.reverse))
        simpa [List.append_assoc] using hp
      rw [hperm.nodup_iff, List.nodup_append]
      refine ⟨by simpa [List.append_assoc] using h1, by simp [hnd], ?_⟩
      intro a ha hae
      have hav : a ∈ visited := h2 a (by simpa [List.append_assoc] using ha)
      exact (hmem a (List.mem_reverse.mp hae)).2 hav
    · rw [heq]
      show ∀ x ∈ (result ++ [id]) ++ (extra.reverse ++ rest), x ∈ visited ++ extra
      intro x hx
      rcases List.mem_append.mp hx with hx1 | hx2
      · have hx' : x ∈ result ++ id :: rest := by
          rcases List.mem_append.mp hx1 with h | h
          · exact List.mem_append_left _ h
          · have hxe : x = id := by simpa using h
            exact List.mem_append_right _ (by simp [hxe])
        exact List.mem_append_left _ (h2 x hx')
      · rcases List.mem_append.mp hx2 with hxe | hxr
        · exact List.mem_append_right _ (List.mem_reverse.mp hxe)
        · exact List.mem_append_left _ (h2 x (by simp [hxr]))

theorem sqlxDfsLoop_sound (rows : List Row) (visited stack result : List Str) :
    ∀ x ∈ sqlxDfsLoop rows visited stack result,
      x ∈ result ∨ ∃ s ∈ stack, ReachBy (relatedEdge rows) s x := by
  induction visited, stack, result using sqlxDfsLoop.induct rows with
  | case1 visited result =>
    intro x hx
    rw [sqlxDfsLoop] at hx
    exact Or.inl hx
  | case2 visited result id rest ih =>
    intro x hx
    rw [sqlxDfsLoop] at hx
    rcases pushFreshStack_spec (selectRelated rows id relatedName) visited rest
      with ⟨extra, heq, hnd, hmem⟩
    rcases ih x hx with h | ⟨s, hs, hr⟩
    · rcases List.mem_append.mp h with h1 | h2
      · exact Or.inl h1
      · refine Or.inr ⟨id, List.mem_cons_self _ _, ?_⟩
        have hxe : x = id := by simpa using h2
        exact hxe ▸ ReachBy.refl x
    · have hs' : s ∈ extra.reverse ++ rest := by
        rw [heq] at hs
        exact hs
      rcases List.mem_append.mp hs' with h1 | h2
      · refine Or.inr ⟨id, List.mem_cons_self _ _, ?_⟩
        have hedge : relatedEdge rows id s := (hmem s (List.mem_reverse.mp h1)).1
        exact reachBy_head hedge hr
      · exact Or.inr ⟨s, List.mem_cons_of_mem _ h2, hr⟩

theorem sqlxDfsLoop_closed (rows : List Row) (visited stack result : List Str) :
    (∀ v ∈ visited, v ∈ result ++ stack) →
    ∀ x ∈ sqlxDfsLoop rows visited stack result, x ∉ result →
      ∀ y ∈ selectRelated rows x relatedName, y ∈ sqlxDfsLoop rows visited stack result := by
  induction visited, stack, result using sqlxDfsLoop.induct rows with
  | case1 visited result =>
    intro hvs x hx hnx y hy
    rw [sqlxDfsLoop] at hx
    exact absurd hx hnx
  | case2 visited result id rest ih =>
    intro hvs x hx hnx y hy
    rcases pushFreshStack_spec (selectRelated rows id relatedName) visited rest
      with ⟨extra, heq, hnd, hmem⟩
    have hvs0 : ∀ v ∈ visited ++ extra, v ∈ (result ++ [id]) ++ (extra.reverse ++ rest) := by
      intro v hv
      rcases List.mem_append.mp hv with hv1 | hv2
      · have hvres := hvs v hv1
        rcases List.mem_append.mp hvres with h | h
        · exact List.mem_append_left _ (List.mem_append_left _ h)
        · rcases List.mem_cons.mp h with he | hr
          · exact List.mem_append_left _ (by simp [he])
          · exact List.mem_append_right _ (List.mem_append_right _ hr)
      · exact List.mem_append_right _ (List.mem_append_left _ (List.mem_reverse.mpr hv2))
    have hvs' : ∀ v ∈ (pushFreshStack visited rest (selectRelated rows id relatedName)).1,
        v ∈ (result ++ [id]) ++ (pushFreshStack visited rest (selectRelated rows id relatedName)).2 := by
      rw [heq]
      exact hvs0
    rw [sqlxDfsLoop] at hx ⊢
    by_cases hxe : x = id
    · subst hxe
      have hy1 : y ∈ (pushFreshStack visited rest (selectRelated rows x relatedName)).1 :=
        pushFreshStack_mem_rel _ _ _ y hy
      have hy2 := hvs' y hy1
      rcases List.mem_append.mp hy2 with h | h
      · rcases sqlxDfsLoop_prefix rows
          (pushFreshStack visited rest (selectRelated rows x relatedName)).1
          (pushFreshStack visited rest (selectRelated rows x relatedName)).2
          (result ++ [x]) with ⟨t, ht⟩
        rw [ht]
        exact List.mem_append_left _ h
      · exact sqlxDfsLoop_mem_stack rows _ _ _ y h
    · exact ih hvs' x hx (by simp [hnx, hxe]) y hy

theorem sqlxDfsFrom_eq_cons (rows : List Row) (start_id : Str) :
    ∃ t, sqlxDfsFrom rows start_id = start_id :: t := by
  unfold sqlxDfsFrom
  rw [sqlxDfsLoop]
  rcases sqlxDfsLoop_prefix rows
    (pushFreshStack [start_id] [] (selectRelated rows start_id relatedName)).1
    (pushFreshStack [start_id] [] (selectRelated rows start_id relatedName)).2
    ([] ++ [start_id]) with ⟨t, ht⟩
  exact ⟨t, by rw [ht]; simp⟩

theorem sqlxDfsFrom_nodup (rows : List Row) (start_id : Str) :
    (sqlxDfsFrom rows start_id).Nodup :=
  sqlxDfsLoop_nodup rows [start_id] [start_id] [] (by simp) (by simp)

theorem sqlxDfsFrom_mem_iff (rows : List Row) (start_id x : Str) :
    x ∈ sqlxDfsFrom rows start_id ↔ ReachBy (relatedEdge rows) start_id x := by
  constructor
  · intro hx
    rcases sqlxDfsLoop_sound rows [start_id] [start_id] [] x hx with h | ⟨s, hs, hr⟩
    · simp at h
    · have hse : s = start_id := by simpa using hs
      exact hse ▸ hr
  · intro hr
    induction hr with
    | refl => exact sqlxDfsLoop_mem_stack rows [start_id] [start_id] [] _ (by simp)
    | tail _ h2 ih =>
      exact sqlxDfsLoop_closed rows [start_id] [start_id] [] (by simp) _ ih
        (List.not_mem_nil _) _ h2

theorem sqlxBfsLoop_prefix (rows : List Row) (visited queue result : List Str) :
    ∃ t, sqlxBfsLoop rows visited queue result = result ++ t := by
  induction visited, queue, result using sqlxBfsLoop.induct rows with
  | case1 visited result => exact ⟨[], by simp [sqlxBfsLoop]⟩
  | case2 visited result id rest ih =>
    rcases ih with ⟨t, ht⟩
    refine ⟨[id] ++ t, ?_⟩
    rw [sqlxBfsLoop, ht]
    simp

theorem sqlxBfsLoop_mem_queue (rows : List Row) (visited queue result : List Str) :
    ∀ x ∈ queue, x ∈ sqlxBfsLoop rows visited queue result := by
  induction visited, queue, result using sqlxBfsLoop.induct rows with
  | case1 visited result => intro x hx; simp at hx
  | case2 visited result id rest ih =>
    intro x hx
    rw [sqlxBfsLoop]
    rcases List.mem_cons.mp hx with he | hm
    · rcases sqlxBfsLoop_prefix rows
        (pushFreshQueue visited rest (selectRelated rows id relatedName)).1
        (pushFreshQueue visited rest (selectRelated rows id relatedName)).2
        (result ++ [id]) with ⟨t, ht⟩
      rw [ht]
      exact List.mem_append_left _ (by simp [he])
    · rcases pushFreshQueue_spec (selectRelated rows id relatedName) visited rest
        with ⟨extra, heq, _, _⟩
      apply ih
      rw [heq]
      exact List.mem_append_left _ hm

theorem sqlxBfsLoop_nodup (rows : List Row) (visited queue result : List Str) :
    (result ++ queue).Nodup → (∀ x ∈ result ++ queue, x ∈ visited) →
    (sqlxBfsLoop rows visited queue result).Nodup := by
  induction visited, queue, result using sqlxBfsLoop.induct rows with
  | case1 visited result =>
    intro h1 _
    rw [sqlxBfsLoop]
    simpa using h1
  | case2 visited result id rest ih =>
    intro h1 h2
    rw [sqlxBfsLoop]
    rcases pushFreshQueue_spec (selectRelated rows id relatedName) visited rest
      with ⟨extra, heq, hnd, hmem⟩
    apply ih
    · rw [heq]
      show ((result ++ [id]) ++ (rest ++ extra)).Nodup
      have hre : (result ++ [id]) ++ (rest ++ extra) =
          ((result ++ [id]) ++ rest) ++ extra := by
        simp [List.append_assoc]
      rw [hre, List.nodup_append]
      refine ⟨by simpa [List.append_assoc] using h1, hnd, ?_⟩
      intro a ha hae
      have hav : a ∈ visited := h2 a (by simpa [List.append_assoc] using ha)
      exact (hmem a hae).2 hav
    · rw [heq]
      show ∀ x ∈ (result ++ [id]) ++ (rest ++ extra), x ∈ visited ++ extra
      intro x hx
      rcases List.mem_append.mp hx with hx1 | hx2
      · have hx' : x ∈ result ++ id :: rest := by
          rcases List.mem_append.mp hx1 with h | h
          · exact List.mem_append_left _ h
          · have hxe : x = id := by simpa using h
            exact List.mem_append_right _ (by simp [hxe])
        exact List.mem_append_left _ (h2 x hx')
      · rcases List.mem_append.mp hx2 with hxr | hxe
        · exact List.mem_append_left _ (h2 x (by simp [hxr]))
        · exact List.mem_append_right _ hxe

theorem sqlxBfsLoop_sound (rows : List Row) (visited queue result : List Str) :
    ∀ x ∈ sqlxBfsLoop rows visited queue result,
      x ∈ result ∨ ∃ s ∈ queue, ReachBy (relatedEdge rows) s x := by
  induction visited, queue, result using sqlxBfsLoop.induct rows with
  | case1 visited result =>
    intro x hx
    rw [sqlxBfsLoop] at hx
    exact Or.inl hx
  | case2 visited result id rest ih =>
    intro x hx
    rw [sqlxBfsLoop] at hx
    rcases pushFreshQueue_spec (selectRelated rows id relatedName) visited rest
      with ⟨extra, heq, hnd, hmem⟩
    rcases ih x hx with h | ⟨s, hs, hr⟩
    · rcases List.mem_append.mp h with h1 | h2
      · exact Or.inl h1
      · refine Or.inr ⟨id, List.mem_cons_self _ _, ?_⟩
        have hxe : x = id := by simpa using h2
        exact hxe ▸ ReachBy.refl x
    · have hs' : s ∈ rest ++ extra := by
        rw [heq] at hs
        exact hs
      rcases List.mem_append.mp hs' with h1 | h2
      · exact Or.inr ⟨s, List.mem_cons_of_mem _ h1, hr⟩
      · refine Or.inr ⟨id, List.mem_cons_self _ _, ?_⟩
        have hedge : relatedEdge rows id s := (hmem s h2).1
        exact reachBy_head hedge hr

theorem sqlxBfsLoop_closed (rows : List Row) (visited queue result : List Str) :
    (∀ v ∈ visited, v ∈ result ++ queue) →
    ∀ x ∈ sqlxBfsLoop rows visited queue result, x ∉ result →
      ∀ y ∈ selectRelated rows x relatedName, y ∈ sqlxBfsLoop rows visited queue result := by
  induction visited, queue, result using sqlxBfsLoop.induct rows with
  | case1 visited result =>
    intro hvs x hx hnx y hy
    rw [sqlxBfsLoop] at hx
    exact absurd hx hnx
  | case2 visited result id rest ih =>
    intro hvs x hx hnx y hy
    rcases pushFreshQueue_spec (selectRelated rows id relatedName) visited rest
      with ⟨extra, heq, hnd, hmem⟩
    have hvs0 : ∀ v ∈ visited ++ extra, v ∈ (result ++ [id]) ++ (rest ++ extra) := by
      intro v hv
      rcases List.mem_append.mp hv with hv1 | hv2
      · have hvres := hvs v hv1
        rcases List.mem_append.mp hvres with h | h
        · exact List.mem_append_left _ (List.mem_append_left _ h)
        · rcases List.mem_cons.mp h with he | hr
          · exact List.mem_append_left _ (by simp [he])
          · exact List.mem_append_right _ (List.mem_append_left _ hr)
      · exact List.mem_append_right _ (List.mem_append_right _ hv2)
    have hvs' : ∀ v ∈ (pushFreshQueue visited rest (selectRelated rows id relatedName)).1,
        v ∈ (result ++ [id]) ++ (pushFreshQueue visited rest (selectRelated rows id relatedName)).2 := by
      rw [heq]
      exact hvs0
    rw [sqlxBfsLoop] at hx ⊢
    by_cases hxe : x = id
    · subst hxe
      have hy1 : y ∈ (pushFreshQueue visited rest (selectRelated rows x relatedName)).1 :=
        pushFreshQueue_mem_rel _ _ _ y hy
      have hy2 := hvs' y hy1
      rcases List.mem_append.mp hy2 with h | h
      · rcases sqlxBfsLoop_prefix rows
          (pushFreshQueue visited rest (selectRelated rows x relatedName)).1
          (pushFreshQueue visited rest (selectRelated rows x relatedName)).2
          (result ++ [x]) with ⟨t, ht⟩
        rw [ht]
        exact List.mem_append_left _ h
      · exact sqlxBfsLoop_mem_queue rows _ _ _ y h
    · exact ih hvs' x hx (by simp [hnx, hxe]) y hy

theorem sqlxBfsFrom_eq_cons (rows : List Row) (start_id : Str) :
    ∃ t, sqlxBfsFrom rows start_id = start_id :: t := by
  unfold sqlxBfsFrom
  rw [sqlxBfsLoop]
  rcases sqlxBfsLoop_prefix rows
    (pushFreshQueue [start_id] [] (selectRelated rows start_id relatedName)).1
    (pushFreshQueue [start_id] [] (selectRelated rows start_id relatedName)).2
    ([] ++ [start_id]) with ⟨t, ht⟩
  exact ⟨t, by rw [ht]; simp⟩

theorem sqlxBfsFrom_nodup (rows : List Row) (start_id : Str) :
    (sqlxBfsFrom rows start_id).Nodup :=
  sqlxBfsLoop_nodup rows [start_id] [start_id] [] (by simp) (by simp)

theorem sqlxBfsFrom_mem_iff (rows : List Row) (start_id x : Str) :
    x ∈ sqlxBfsFrom rows start_id ↔ ReachBy (relatedEdge rows) start_id x := by
  constructor
  · intro hx
    rcases sqlxBfsLoop_sound rows [start_id] [start_id] [] x hx with h | ⟨s, hs, hr⟩
    · simp at h
    · have hse : s = start_id := by simpa using hs
      exact hse ▸ hr
  · intro hr
    induction hr with
    | refl => exact sqlxBfsLoop_mem_queue rows [start_id] [start_id] [] _ (by simp)
    | tail _ h2 ih =>
      exact sqlxBfsLoop_closed rows [start_id] [start_id] [] (by simp) _ ih
        (List.not_mem_nil _) _ h2

theorem sqlxDfsLoop_congr (rows1 rows2 : List Row)
    (hsel : ∀ id, selectRelated rows1 id relatedName = selectRelated rows2 id relatedName) :
    ∀ visited stack result,
      sqlxDfsLoop rows1 visited stack result = sqlxDfsLoop rows2 visited stack result := by
  intro visited stack result
  induction visited, stack, result using sqlxDfsLoop.induct rows1 with
  | case1 visited result => simp [sqlxDfsLoop]
  | case2 visited result id rest ih =>
    rw [sqlxDfsLoop]
    conv_rhs => rw [sqlxDfsLoop]
    rw [← hsel id]
    exact ih

theorem sqlxBfsLoop_congr (rows1 rows2 : List Row)
    (hsel : ∀ id, selectRelated rows1 id relatedName = selectRelated rows2 id relatedName) :
    ∀ visited queue result,
      sqlxBfsLoop rows1 visited queue result = sqlxBfsLoop rows2 visited queue result := by
  intro visited queue result
  induction visited, queue, result using sqlxBfsLoop.induct rows1 with
  | case1 visited result => simp [sqlxBfsLoop]
  | case2 visited result id rest ih =>
    rw [sqlxBfsLoop]
    conv_rhs => rw [sqlxBfsLoop]
    rw [← hsel id]
    exact ih

/-- Restricting the relations table to the rows named `"related"` does not
change any `"related"` edge query. -/
theorem selectRelated_filter (rows : List Row) (id : Str) :
    selectRelated (rows.filter (fun r => decide (r.name = relatedName))) id relatedName =
      selectRelated rows id relatedName := by
  induction rows with
  | nil => rfl
  | cons r rows ih =>
    by_cases h1 : r.name = relatedName <;> by_cases h2 : r.from_id = id <;>
      simp [selectRelated, List.filter_cons, h1, h2]

/-- C4: in both backends, depth-first search visits the start node first
(the result starts with it), visits no node twice, and visits exactly the
nodes reachable from the start along the edges that backend follows —
heed: stored relations of any name ordered from `from` to `to`; sqlx: rows
named `"related"`.  In particular every reachable node is visited exactly
once and no unreachable node is ever visited. -/
theorem claim4_dfs_visits_reachable_once (rels : List (Str × Str × Str))
    (rows : List Row) (start_id : Str) :
    (∃ t, dfsFrom rels start_id = start_id :: t) ∧
    (dfsFrom rels start_id).Nodup ∧
    (∀ x, x ∈ dfsFrom rels start_id ↔ ReachBy (heedEdge rels) start_id x) ∧
    (∃ t, sqlxDfsFrom rows start_id = start_id :: t) ∧
    (sqlxDfsFrom rows start_id).Nodup ∧
    (∀ x, x ∈ sqlxDfsFrom rows start_id ↔ ReachBy (relatedEdge rows) start_id x) :=
  ⟨dfsFrom_eq_cons rels start_id, dfsFrom_nodup rels start_id,
   fun x => dfsFrom_mem_iff rels start_id x,
   sqlxDfsFrom_eq_cons rows start_id, sqlxDfsFrom_nodup rows start_id,
   fun x => sqlxDfsFrom_mem_iff rows start_id x⟩

/-- C2 (the heed `bfs` is defective — see the comment on `dfs`): the claim
holds of the sqlx backend, whose `bfs` uses a true FIFO dequeue
(`VecDeque::pop_front`).  There, breadth-first visits exactly the same set
of nodes as depth-first for every relations table and start node; on the
spec's example graph A→B, B→C, A→C it yields A, B, C — A first, the
distance-1 nodes B and C before any farther node — while depth-first yields
A, C, B: the same set in a different order. -/
theorem claim2_sqlx_bfs_matches_dfs (rows : List Row) (start_id : Str) :
    (∀ x, x ∈ sqlxBfsFrom rows start_id ↔ x ∈ sqlxDfsFrom rows start_id) ∧
    sqlxBfsFrom exampleRows "A".toList = ["A".toList, "B".toList, "C".toList] ∧
    sqlxDfsFrom exampleRows "A".toList = ["A".toList, "C".toList, "B".toList] :=
  ⟨fun x => (sqlxBfsFrom_mem_iff rows start_id x).trans
      (sqlxDfsFrom_mem_iff rows start_id x).symm,
   by simp +decide [sqlxBfsFrom, sqlxBfsLoop, pushFreshQueue, selectRelated,
     exampleRows, relatedName],
   by simp +decide [sqlxDfsFrom, sqlxDfsLoop, pushFreshStack, selectRelated,
     exampleRows, relatedName]⟩

/-- C10: the sqlx traversals follow only rows whose name is `"related"`:
deleting every other row from the table changes neither `dfs` nor `bfs`
(so no node is ever reached through a differently-named row), and every
visited node is reachable from the start along `"related"` rows alone. -/
theorem claim10_only_related_edges (rows : List Row) (start_id : Str) :
    sqlxDfsFrom rows start_id =
      sqlxDfsFrom (rows.filter (fun r => decide (r.name = relatedName))) start_id ∧
    sqlxBfsFrom rows start_id =
      sqlxBfsFrom (rows.filter (fun r => decide (r.name = relatedName))) start_id ∧
    (∀ x, x ∈ sqlxDfsFrom rows start_id ↔ ReachBy (relatedEdge rows) start_id x) ∧
    (∀ x, x ∈ sqlxBfsFrom rows start_id ↔ ReachBy (relatedEdge rows) start_id x) :=
  ⟨sqlxDfsLoop_congr rows (rows.filter (fun r => decide (r.name = relatedName)))
      (fun id => (selectRelated_filter rows id).symm) [start_id] [start_id] [],
   sqlxBfsLoop_congr rows (rows.filter (fun r => decide (r.name = relatedName)))
      (fun id => (selectRelated_filter rows id).symm) [start_id] [start_id] [],
   fun x => sqlxDfsFrom_mem_iff rows start_id x,
   fun x => sqlxBfsFrom_mem_iff rows start_id x⟩

end Rhyzome
